import Mathlib

/-!
Verification of the bookbot concurrency/caching substrate
(`src/bookbot/utils/{resource_manager,rate_limiter,cache,token_tracker}.py`)
against its specification.

Modelling conventions:
* Python floats (timestamps, VRAM amounts, memory budgets, costs) are
  modelled as exact rationals `ℚ`; Python ints as `ℕ`/`ℤ`.
* A Python `dict` is modelled as an association list in insertion order
  with unique keys: assignment to an existing key updates the value in
  place (CPython dicts keep the key position), assignment to a new key
  appends, `del` removes the pair, and `del` of a missing key is a
  `KeyError` (modelled as `none`/failure).
* `async` methods that take the instance lock and mutate state are
  modelled as pure state-passing functions; the single event loop means
  each locked critical section is one atomic step.
-/

namespace BookBot

/-- Python `k in d` for the association-list dict model. -/
def dmem {K V : Type} [DecidableEq K] : List (K × V) → K → Bool
  | [], _ => false
  | p :: rest, k => if p.1 = k then true else dmem rest k

/-- Python `d[k]` read (`none` when the key is absent). -/
def dget {K V : Type} [DecidableEq K] : List (K × V) → K → Option V
  | [], _ => none
  | p :: rest, k => if p.1 = k then some p.2 else dget rest k

/-- Python `d[k] = v`: update in place when the key exists, append otherwise. -/
def dset {K V : Type} [DecidableEq K] : List (K × V) → K → V → List (K × V)
  | [], k, v => [(k, v)]
  | p :: rest, k, v => if p.1 = k then (k, v) :: rest else p :: dset rest k v

/-- Python `del d[k]` on a key known to be present: drop the pair. -/
def ddel {K V : Type} [DecidableEq K] : List (K × V) → K → List (K × V)
  | [], _ => []
  | p :: rest, k => if p.1 = k then ddel rest k else p :: ddel rest k

theorem dmem_dset_self {K V : Type} [DecidableEq K] (d : List (K × V)) (k : K) (v : V) :
    dmem (dset d k v) k = true := by
  induction d with
  | nil => simp [dset, dmem]
  | cons p rest ih =>
    by_cases h : p.1 = k
    · simp [dset, dmem, h]
    · simp [dset, dmem, h, ih]

theorem dget_dset_self {K V : Type} [DecidableEq K] (d : List (K × V)) (k : K) (v : V) :
    dget (dset d k v) k = some v := by
  induction d with
  | nil => simp [dset, dget]
  | cons p rest ih =>
    by_cases h : p.1 = k
    · simp [dset, dget, h]
    · simp [dset, dget, h, ih]

theorem dmem_ddel_self {K V : Type} [DecidableEq K] (d : List (K × V)) (k : K) :
    dmem (ddel d k) k = false := by
  induction d with
  | nil => simp [ddel, dmem]
  | cons p rest ih =>
    by_cases h : p.1 = k
    · simp [ddel, h, ih]
    · simp [ddel, dmem, h, ih]

theorem dset_not_mem_append {K V : Type} [DecidableEq K] (d : List (K × V)) (k : K) (v : V)
    (h : dmem d k = false) : dset d k v = d ++ [(k, v)] := by
  induction d with
  | nil => simp [dset]
  | cons p rest ih =>
    simp only [dmem] at h
    by_cases hp : p.1 = k
    · simp [hp] at h
    · simp only [dset, hp, if_false, List.cons_append, List.cons.injEq, true_and]
      exact ih (by simpa [hp] using h)

theorem ddel_not_mem {K V : Type} [DecidableEq K] (d : List (K × V)) (k : K)
    (h : dmem d k = false) : ddel d k = d := by
  induction d with
  | nil => rfl
  | cons p rest ih =>
    simp only [dmem] at h
    by_cases hp : p.1 = k
    · simp [hp] at h
    · simp only [ddel, hp, if_false, List.cons.injEq, true_and]
      exact ih (by simpa [hp] using h)

/-!
## Resource allocator (`VRAMManager`, resource_manager.py)
-/

/-- State of a `VRAMManager`: fixed budget, running total, allocation dict. -/
structure VRAMState where
  total_vram : ℚ
  allocated_vram : ℚ
  allocations : List (String × ℚ)
  deriving DecidableEq

/-- Fresh `VRAMManager(total_vram)`. -/
def initVRAM (total : ℚ) : VRAMState := ⟨total, 0, []⟩

/-- `get_available_vram`: `total_vram - allocated_vram`. -/
def get_available_vram (s : VRAMState) : ℚ := s.total_vram - s.allocated_vram

/-- Entry half of the `allocate` context manager: under the lock, check
`allocated_vram + amount > total_vram`; raise (returning `false` with the
state untouched) on overflow, otherwise add `amount` and record the
allocation under `agent_id`. -/
def allocEnter (s : VRAMState) (agent_id : String) (amount : ℚ) : Bool × VRAMState :=
  if s.allocated_vram + amount > s.total_vram then
    (false, s)
  else
    (true, { s with allocated_vram := s.allocated_vram + amount,
                    allocations := dset s.allocations agent_id amount })

/-- Exit half of the `allocate` context manager (the `finally` block):
subtract `amount` and `del` the `agent_id` entry.  `del` of an absent key
raises `KeyError`, modelled as `none`.  (In the source the subtraction
happens before the failing `del`; the claims never observe the state after
a `KeyError`, so the failure is modelled as a bare `none`.) -/
def allocExit (s : VRAMState) (agent_id : String) (amount : ℚ) : Option VRAMState :=
  if dmem s.allocations agent_id then
    some { s with allocated_vram := s.allocated_vram - amount,
                  allocations := ddel s.allocations agent_id }
  else
    none

/-- How the scope around `yield` was left. -/
inductive ExitPath where
  | normal : ExitPath
  | exception : ExitPath

/-- The `finally` block runs the same release on a normal exit and on an
exception raised inside the scope. -/
def scopeRelease (s : VRAMState) (agent_id : String) (amount : ℚ) :
    ExitPath → Option VRAMState
  | ExitPath.normal => allocExit s agent_id amount
  | ExitPath.exception => allocExit s agent_id amount

/-- Run a sequence of `allocate` entries; `false` as soon as one raises. -/
def allocSeq : VRAMState → List (String × ℚ) → Bool × VRAMState
  | s, [] => (true, s)
  | s, (a, amt) :: rest =>
    let r := allocEnter s a amt
    if r.1 then allocSeq r.2 rest else (false, s)

/-- Sum of the amounts recorded in the allocation dict. -/
def sumValues (d : List (String × ℚ)) : ℚ := (d.map (fun p => p.2)).sum

theorem allocSeq_all_fit (reqs : List (String × ℚ)) :
    ∀ s : VRAMState, (∀ r ∈ reqs, 0 ≤ r.2) →
    s.allocated_vram + (reqs.map (fun r => r.2)).sum ≤ s.total_vram →
    (allocSeq s reqs).1 = true := by
  induction reqs with
  | nil => intro s _ _; rfl
  | cons hd tl ih =>
    intro s hpos hfit
    obtain ⟨a, amt⟩ := hd
    have htl_nonneg : 0 ≤ (tl.map (fun r => r.2)).sum := by
      apply List.sum_nonneg
      intro x hx
      obtain ⟨r, hr, rfl⟩ := List.mem_map.mp hx
      exact hpos r (List.mem_cons_of_mem _ hr)
    have hsum : s.allocated_vram + amt + (tl.map (fun r => r.2)).sum ≤ s.total_vram := by
      have := hfit
      simp only [List.map_cons, List.sum_cons] at this
      linarith
    have hok : ¬ (s.allocated_vram + amt > s.total_vram) := by
      push_neg
      linarith
    simp only [allocSeq, allocEnter, if_neg hok]
    exact ih _ (fun r hr => hpos r (List.mem_cons_of_mem _ hr)) (by simpa using hsum)

/-- C1: an over-budget `allocate` raises before any state change (the
state, hence `get_available_vram`, is exactly as before), while a sequence
of nonnegative allocations summing exactly to the budget all succeed
(the capacity check is strict `>`, so an exact fit is admitted). -/
theorem vram_capacity_check
    (s : VRAMState) (agent_id : String) (amount : ℚ)
    (total : ℚ) (reqs : List (String × ℚ))
    (hover : s.allocated_vram + amount > s.total_vram)
    (hpos : ∀ r ∈ reqs, 0 ≤ r.2)
    (hsum : (reqs.map (fun r => r.2)).sum = total) :
    allocEnter s agent_id amount = (false, s) ∧
    get_available_vram (allocEnter s agent_id amount).2 = get_available_vram s ∧
    (allocSeq (initVRAM total) reqs).1 = true := by
  have henter : allocEnter s agent_id amount = (false, s) := by
    simp [allocEnter, if_pos hover]
  refine ⟨henter, by rw [henter], ?_⟩
  apply allocSeq_all_fit reqs (initVRAM total) hpos
  simp [initVRAM, hsum]

theorem vram_capacity_check_witness :
    allocEnter ⟨10, 8, []⟩ "a" 5 = (false, ⟨10, 8, []⟩) ∧
    get_available_vram (allocEnter ⟨10, 8, []⟩ "a" 5).2 = get_available_vram ⟨10, 8, []⟩ ∧
    (allocSeq (initVRAM 10) [("x", 4), ("y", 6)]).1 = true :=
  vram_capacity_check ⟨10, 8, []⟩ "a" 5 10 [("x", 4), ("y", 6)]
    (by norm_num)
    (by intro r hr; simp only [List.mem_cons, List.mem_singleton] at hr
        rcases hr with rfl | rfl | h
        · norm_num
        · norm_num
        · exact absurd h (List.not_mem_nil r))
    (by norm_num)

/-- C2: after a successful `allocate` entry, release on any exit path
(normal or exception) succeeds, subtracts the amount, removes the owner
from the allocation dict, and restores `get_available_vram`. -/
theorem vram_release_any_path
    (s s1 : VRAMState) (agent_id : String) (amount : ℚ) (path : ExitPath)
    (henter : allocEnter s agent_id amount = (true, s1)) :
    ∃ s2, scopeRelease s1 agent_id amount path = some s2 ∧
      s2.allocated_vram = s.allocated_vram ∧
      get_available_vram s2 = get_available_vram s ∧
      dmem s2.allocations agent_id = false := by
  by_cases hover : s.allocated_vram + amount > s.total_vram
  · simp [allocEnter, if_pos hover] at henter
  · simp only [allocEnter, if_neg hover, Prod.mk.injEq, true_and] at henter
    have hmem : dmem s1.allocations agent_id = true := by
      rw [← henter]
      exact dmem_dset_self _ _ _
    have hexit : allocExit s1 agent_id amount =
        some { s1 with allocated_vram := s1.allocated_vram - amount,
                       allocations := ddel s1.allocations agent_id } := by
      simp [allocExit, hmem]
    have hrel : ∀ p : ExitPath, scopeRelease s1 agent_id amount p =
        allocExit s1 agent_id amount := by
      intro p; cases p <;> rfl
    refine ⟨_, (hrel path).trans hexit, ?_, ?_, ?_⟩
    · rw [← henter]; ring
    · rw [← henter]; simp [get_available_vram]
    · exact dmem_ddel_self _ _

theorem vram_release_any_path_witness :
    ∃ s2, scopeRelease ⟨10, 3, [("a", 3)]⟩ "a" 3 ExitPath.exception = some s2 ∧
      s2.allocated_vram = (⟨10, 0, []⟩ : VRAMState).allocated_vram ∧
      get_available_vram s2 = get_available_vram ⟨10, 0, []⟩ ∧
      dmem s2.allocations "a" = false :=
  vram_release_any_path ⟨10, 0, []⟩ ⟨10, 3, [("a", 3)]⟩ "a" 3 ExitPath.exception
    (by norm_num [allocEnter, dset])

theorem sumValues_append (d e : List (String × ℚ)) :
    sumValues (d ++ e) = sumValues d + sumValues e := by
  simp [sumValues]

theorem dset_append_single {K V : Type} [DecidableEq K] (d : List (K × V)) (k : K) (x y : V)
    (h : dmem d k = false) : dset (d ++ [(k, x)]) k y = d ++ [(k, y)] := by
  induction d with
  | nil => simp [dset]
  | cons p rest ih =>
    simp only [dmem] at h
    by_cases hp : p.1 = k
    · simp [hp] at h
    · simp only [List.cons_append, dset, hp, if_false, List.cons.injEq, true_and]
      exact ih (by simpa [hp] using h)

theorem dget_append_single {K V : Type} [DecidableEq K] (d : List (K × V)) (k : K) (y : V)
    (h : dmem d k = false) : dget (d ++ [(k, y)]) k = some y := by
  induction d with
  | nil => simp [dget]
  | cons p rest ih =>
    simp only [dmem] at h
    by_cases hp : p.1 = k
    · simp [hp] at h
    · simp only [List.cons_append, dget, hp, if_false]
      exact ih (by simpa [hp] using h)

theorem ddel_append_single {K V : Type} [DecidableEq K] (d : List (K × V)) (k : K) (y : V)
    (h : dmem d k = false) : ddel (d ++ [(k, y)]) k = d := by
  induction d with
  | nil => simp [ddel]
  | cons p rest ih =>
    simp only [dmem] at h
    by_cases hp : p.1 = k
    · simp [hp] at h
    · simp only [List.cons_append, ddel, hp, if_false, List.cons.injEq, true_and]
      exact ih (by simpa [hp] using h)

/-- C10: two simultaneously active allocations under the same `agent_id`
leave only the later amount in the allocation dict, breaking the
sum-of-allocations = `allocated_vram` correspondence, and the second of
the two releases hits a key already deleted by the first, raising
`KeyError`. -/
theorem vram_duplicate_owner
    (s s1 s2 : VRAMState) (a : String) (x y : ℚ)
    (hnotin : dmem s.allocations a = false)
    (hsum : sumValues s.allocations = s.allocated_vram)
    (hx : x ≠ 0)
    (h1 : allocEnter s a x = (true, s1))
    (h2 : allocEnter s1 a y = (true, s2)) :
    dget s2.allocations a = some y ∧
    sumValues s2.allocations ≠ s2.allocated_vram ∧
    ∃ s3, allocExit s2 a y = some s3 ∧ dmem s3.allocations a = false ∧
      allocExit s3 a x = none := by
  by_cases hov1 : s.allocated_vram + x > s.total_vram
  · simp [allocEnter, if_pos hov1] at h1
  · simp only [allocEnter, if_neg hov1, Prod.mk.injEq, true_and] at h1
    by_cases hov2 : s1.allocated_vram + y > s1.total_vram
    · simp [allocEnter, if_pos hov2] at h2
    · simp only [allocEnter, if_neg hov2, Prod.mk.injEq, true_and] at h2
      have hall1 : s1.allocations = s.allocations ++ [(a, x)] := by
        rw [← h1]
        exact dset_not_mem_append s.allocations a x hnotin
      have hv1 : s1.allocated_vram = s.allocated_vram + x := by rw [← h1]
      have hall2 : s2.allocations = s.allocations ++ [(a, y)] := by
        rw [← h2]
        show dset s1.allocations a y = _
        rw [hall1]
        exact dset_append_single s.allocations a x y hnotin
      have hv2 : s2.allocated_vram = s.allocated_vram + x + y := by
        rw [← h2]
        show s1.allocated_vram + y = _
        rw [hv1]
      refine ⟨?_, ?_, ?_⟩
      · rw [hall2]; exact dget_append_single _ _ _ hnotin
      · rw [hall2, sumValues_append, hv2, ← hsum]
        have hy : sumValues [(a, y)] = y := by simp [sumValues]
        rw [hy]
        intro hcontra
        apply hx
        linarith
      · have hmem2 : dmem s2.allocations a = true := by
          rw [← h2]
          exact dmem_dset_self s1.allocations a y
        have hdel : ddel s2.allocations a = s.allocations := by
          rw [hall2]
          exact ddel_append_single _ _ _ hnotin
        refine ⟨{ s2 with allocated_vram := s2.allocated_vram - y,
                          allocations := ddel s2.allocations a }, ?_, ?_, ?_⟩
        · simp [allocExit, hmem2]
        · show dmem (ddel s2.allocations a) a = false
          rw [hdel]; exact hnotin
        · show allocExit { s2 with allocated_vram := s2.allocated_vram - y,
                                   allocations := ddel s2.allocations a } a x = none
          simp [allocExit, hdel, hnotin]

theorem vram_duplicate_owner_witness :
    dget (⟨10, 3, [("a", 2)]⟩ : VRAMState).allocations "a" = some 2 ∧
    sumValues (⟨10, 3, [("a", 2)]⟩ : VRAMState).allocations ≠
      (⟨10, 3, [("a", 2)]⟩ : VRAMState).allocated_vram ∧
    ∃ s3, allocExit ⟨10, 3, [("a", 2)]⟩ "a" 2 = some s3 ∧
      dmem s3.allocations "a" = false ∧ allocExit s3 "a" 1 = none :=
  vram_duplicate_owner ⟨10, 0, []⟩ ⟨10, 1, [("a", 1)]⟩ ⟨10, 3, [("a", 2)]⟩ "a" 1 2
    rfl (by simp [sumValues]) (by norm_num)
    (by norm_num [allocEnter, dset]) (by norm_num [allocEnter, dset])

/-!
## Rate limiter (`AsyncRateLimiter`, rate_limiter.py)

`retry_interval` only drives the polling loop of `wait_for_token` and is
not modelled; timestamps from `monotonic()` are rationals.
-/

/-- `RateLimitConfig` fields used by `acquire`/`get_current_usage`. -/
structure RateLimitConfig where
  requests_per_window : ℕ
  window_seconds : ℚ
  max_burst : ℤ
  deriving DecidableEq

/-- Mutable state of an `AsyncRateLimiter`: `_requests` and `_burst_tokens`. -/
structure RLState where
  requests : List ℚ
  burst_tokens : ℤ
  deriving DecidableEq

/-- `[t for t in self._requests if now - t < self.config.window_seconds]`. -/
def pruneRequests (window now : ℚ) (reqs : List ℚ) : List ℚ :=
  reqs.filter (fun t => decide (now - t < window))

/-- `acquire()`: prune, then admit under the window limit, else consume a
burst token, else refuse; the pruned list (plus the new timestamp on
success) is written back to `_requests`. -/
def acquire (cfg : RateLimitConfig) (now : ℚ) (s : RLState) : Bool × RLState :=
  if (pruneRequests cfg.window_seconds now s.requests).length < cfg.requests_per_window then
    (true, ⟨pruneRequests cfg.window_seconds now s.requests ++ [now], s.burst_tokens⟩)
  else if s.burst_tokens > 0 then
    (true, ⟨pruneRequests cfg.window_seconds now s.requests ++ [now], s.burst_tokens - 1⟩)
  else
    (false, ⟨pruneRequests cfg.window_seconds now s.requests, s.burst_tokens⟩)

/-- Run `acquire` at each of the given times in order, collecting results. -/
def runAcquires (cfg : RateLimitConfig) : List ℚ → RLState → List Bool × RLState
  | [], s => ([], s)
  | t :: ts, s =>
    let r := acquire cfg t s
    let rest := runAcquires cfg ts r.2
    (r.1 :: rest.1, rest.2)

/-- The dict returned by `get_current_usage()`. -/
structure UsageSnapshot where
  current_requests : ℕ
  burst_tokens : ℤ
  window_limit : ℕ
  deriving DecidableEq

/-- `get_current_usage()`: prune (writing the pruned list back), then
report the pruned count, a burst figure, and the window limit. -/
def get_current_usage (cfg : RateLimitConfig) (now : ℚ) (s : RLState) :
    UsageSnapshot × RLState :=
  (⟨(pruneRequests cfg.window_seconds now s.requests).length,
    if cfg.requests_per_window ≤ (pruneRequests cfg.window_seconds now s.requests).length
      then 0 else s.burst_tokens,
    cfg.requests_per_window⟩,
   ⟨pruneRequests cfg.window_seconds now s.requests, s.burst_tokens⟩)

theorem pruneRequests_keep (window now : ℚ) (reqs : List ℚ)
    (h : ∀ t ∈ reqs, now - t < window) : pruneRequests window now reqs = reqs := by
  unfold pruneRequests
  apply List.filter_eq_self.mpr
  intro t ht
  simpa using h t ht

theorem runAcquires_under_limit (cfg : RateLimitConfig) :
    ∀ (ts : List ℚ) (s : RLState),
    s.requests.length + ts.length ≤ cfg.requests_per_window →
    (∀ u ∈ ts, ∀ r ∈ s.requests, u - r < cfg.window_seconds) →
    List.Pairwise (fun a b => b - a < cfg.window_seconds) ts →
    runAcquires cfg ts s = (List.replicate ts.length true, ⟨s.requests ++ ts, s.burst_tokens⟩) := by
  intro ts
  induction ts with
  | nil =>
    intro s _ _ _
    simp [runAcquires]
  | cons t ts ih =>
    intro s hlen hsep hpw
    have hkeep : pruneRequests cfg.window_seconds t s.requests = s.requests :=
      pruneRequests_keep _ _ _ (fun r hr => hsep t (List.mem_cons_self _ _) r hr)
    have hlt : s.requests.length < cfg.requests_per_window := by
      simp only [List.length_cons] at hlen
      omega
    have hacq : acquire cfg t s = (true, ⟨s.requests ++ [t], s.burst_tokens⟩) := by
      unfold acquire
      rw [hkeep]
      simp [hlt]
    have hrec : runAcquires cfg ts (⟨s.requests ++ [t], s.burst_tokens⟩ : RLState) =
        (List.replicate ts.length true,
         ⟨(s.requests ++ [t]) ++ ts, s.burst_tokens⟩) := by
      apply ih
      · simp only [List.length_append, List.length_singleton, List.length_cons,
          List.length_nil] at hlen ⊢
        omega
      · intro u hu r hr
        rcases List.mem_append.mp hr with hr | hr
        · exact hsep u (List.mem_cons_of_mem _ hu) r hr
        · rcases List.mem_singleton.mp hr with rfl
          exact (List.pairwise_cons.mp hpw).1 u hu
      · exact (List.pairwise_cons.mp hpw).2
    show ((acquire cfg t s).1 :: (runAcquires cfg ts (acquire cfg t s).2).1,
          (runAcquires cfg ts (acquire cfg t s).2).2) = _
    simp [hacq, hrec, List.replicate_succ, List.append_assoc]

/-- C3: from an empty timestamp list, `requests_per_window` consecutive
`acquire` calls within one window all return `true`, each recording its
timestamp; one more call in the same window returns `false` when the burst
counter is 0, and returns `true` while decrementing the burst counter and
recording the timestamp when it is positive. -/
theorem rate_limiter_window_limit (cfg : RateLimitConfig) (ts : List ℚ) (tNext : ℚ) (b : ℤ)
    (hlen : ts.length = cfg.requests_per_window)
    (hpw : List.Pairwise (fun a c => c - a < cfg.window_seconds) (ts ++ [tNext])) :
    runAcquires cfg ts ⟨[], b⟩ = (List.replicate cfg.requests_per_window true, ⟨ts, b⟩) ∧
    (b = 0 → acquire cfg tNext ⟨ts, b⟩ = (false, ⟨ts, b⟩)) ∧
    (0 < b → acquire cfg tNext ⟨ts, b⟩ = (true, ⟨ts ++ [tNext], b - 1⟩)) := by
  obtain ⟨hpw1, _, hsep⟩ := List.pairwise_append.mp hpw
  have htn : ∀ a ∈ ts, tNext - a < cfg.window_seconds := by
    intro a ha
    exact hsep a ha tNext (List.mem_singleton_self _)
  have hkeepN : pruneRequests cfg.window_seconds tNext ts = ts :=
    pruneRequests_keep _ _ _ htn
  have hnotlt : ¬ (ts.length < cfg.requests_per_window) := by omega
  refine ⟨?_, ?_, ?_⟩
  · have := runAcquires_under_limit cfg ts ⟨[], b⟩ (by simpa using hlen.le) (by simp) hpw1
    simpa [hlen] using this
  · intro hb0
    unfold acquire
    rw [hkeepN]
    simp [hnotlt, hb0]
  · intro hbpos
    unfold acquire
    rw [hkeepN]
    simp [hnotlt, hbpos]

theorem rate_limiter_window_limit_witness :
    runAcquires ⟨2, 60, 1⟩ [0, 10] ⟨[], 1⟩ = (List.replicate 2 true, ⟨[0, 10], 1⟩) ∧
    ((1 : ℤ) = 0 → acquire ⟨2, 60, 1⟩ 20 ⟨[0, 10], 1⟩ = (false, ⟨[0, 10], 1⟩)) ∧
    ((0 : ℤ) < 1 → acquire ⟨2, 60, 1⟩ 20 ⟨[0, 10], 1⟩ = (true, ⟨[0, 10] ++ [20], 1 - 1⟩)) :=
  rate_limiter_window_limit ⟨2, 60, 1⟩ [0, 10] 20 1 rfl
    (by norm_num [List.pairwise_cons])

/-- C7 counterexample: with a full window, `get_current_usage` reports
`burst_tokens = 0` even though the burst counter still holds 5 (and is
left at 5 in the state). -/
theorem get_current_usage_counterexample :
    (get_current_usage ⟨1, 60, 5⟩ 0 ⟨[0], 5⟩).1.burst_tokens = 0 ∧
    (get_current_usage ⟨1, 60, 5⟩ 0 ⟨[0], 5⟩).2.burst_tokens = 5 ∧
    (0 : ℤ) ≠ 5 := by
  have hp : pruneRequests 60 0 [0] = [0] :=
    pruneRequests_keep 60 0 [0]
      (by intro t ht
          simp only [List.mem_singleton] at ht
          subst ht
          norm_num)
  refine ⟨?_, rfl, by norm_num⟩
  simp [get_current_usage, hp]

/-- C7 amended: `get_current_usage` returns, after pruning, the count of
surviving timestamps as `current_requests`, the configured
`requests_per_window` as `window_limit`, and as `burst_tokens` the current
burst counter unless the pruned count has reached the window limit, in
which case 0 is reported; the state keeps the pruned list and the
unchanged burst counter. -/
theorem get_current_usage_snapshot (cfg : RateLimitConfig) (now : ℚ) (s : RLState) :
    (get_current_usage cfg now s).1.current_requests =
      s.requests.countP (fun t => decide (now - t < cfg.window_seconds)) ∧
    (get_current_usage cfg now s).1.window_limit = cfg.requests_per_window ∧
    (get_current_usage cfg now s).1.burst_tokens =
      (if cfg.requests_per_window ≤ (get_current_usage cfg now s).1.current_requests then 0
       else s.burst_tokens) ∧
    (get_current_usage cfg now s).2 =
      ⟨pruneRequests cfg.window_seconds now s.requests, s.burst_tokens⟩ := by
  refine ⟨?_, rfl, rfl, rfl⟩
  show (pruneRequests cfg.window_seconds now s.requests).length = _
  rw [pruneRequests]
  exact (List.countP_eq_length_filter _ _).symm

/-!
## Cache (`AsyncCache`, cache.py)

Timestamps from `time.time()` and the `max_memory_mb` budget are
rationals; entry sizes are naturals.  The size estimate
`sys.getsizeof(json.dumps(value))` is environment-dependent, so `set`
takes the estimated size as an argument.
-/

/-- Constructor arguments of `AsyncCache`; `None` stays `none`. -/
structure CacheConfig where
  ttl : ℚ
  max_size : Option ℕ
  max_memory_mb : Option ℚ
  deriving DecidableEq

/-- One stored tuple `(value, timestamp, size)`. -/
structure CacheEntry (V : Type) where
  value : V
  timestamp : ℚ
  size : ℕ

/-- Mutable state of an `AsyncCache`: the dict and `total_memory`. -/
structure CacheState (V : Type) where
  cache : List (String × CacheEntry V)
  total_memory : ℤ

/-- Python truthiness of `self.max_size : Optional[int]` (`None` and `0`
are falsy). -/
def truthyNat : Option ℕ → Bool
  | none => false
  | some n => decide (n ≠ 0)

/-- Python truthiness of `self.max_memory_mb : Optional[float]`. -/
def truthyQ : Option ℚ → Bool
  | none => false
  | some q => decide (q ≠ 0)

/-- The byte budget `self.max_memory_mb * 1024 * 1024`. -/
def maxBytes (cfg : CacheConfig) : ℚ := cfg.max_memory_mb.getD 0 * 1024 * 1024

/-- The guard `if self.max_memory_mb and size > self.max_memory_mb * 1024 * 1024`
that silently drops an oversized value. -/
def oversized (cfg : CacheConfig) (size : ℕ) : Bool :=
  truthyQ cfg.max_memory_mb && decide (maxBytes cfg < (size : ℚ))

/-- Total of the recorded entry sizes. -/
def sizeSum {V : Type} (c : List (String × CacheEntry V)) : ℤ :=
  (c.map (fun p => (p.2.size : ℤ))).sum

/-- `get(key)`: a present entry with `now - timestamp < ttl` is returned;
an expired entry is deleted with its size subtracted; a missing key is a
miss with no state change. -/
def cacheGet {V : Type} (cfg : CacheConfig) (s : CacheState V) (key : String) (now : ℚ) :
    Option V × CacheState V :=
  match dget s.cache key with
  | none => (none, s)
  | some e =>
    if now - e.timestamp < cfg.ttl then (some e.value, s)
    else (none, ⟨ddel s.cache key, s.total_memory - e.size⟩)

/-- The expired sweep at the top of `set`: delete every entry with
`now - timestamp >= ttl`, subtracting the deleted sizes. -/
def sweepExpired {V : Type} (ttl now : ℚ) (c : List (String × CacheEntry V)) (tot : ℤ) :
    List (String × CacheEntry V) × ℤ :=
  (c.filter (fun p => decide (now - p.2.timestamp < ttl)),
   tot - sizeSum (c.filter (fun p => decide (ttl ≤ now - p.2.timestamp))))

/-- `min(self.cache.items(), key=lambda x: x[1][1])` plus the deletion of
that key: split off the first entry attaining the minimal timestamp
(Python `min` keeps the earlier element on ties). -/
def popOldest {V : Type} :
    List (String × CacheEntry V) →
      Option ((String × CacheEntry V) × List (String × CacheEntry V))
  | [] => none
  | p :: rest =>
    if rest.all (fun q => decide (p.2.timestamp ≤ q.2.timestamp)) then
      some (p, rest)
    else
      match popOldest rest with
      | none => some (p, rest)
      | some (e, rest2) => some (e, p :: rest2)

/-- The loop `while len(self.cache) >= self.max_size and self.cache`.
Each pass removes one entry, so `fuel = c.length` makes the bounded
recursion coincide with the unbounded Python loop. -/
def evictCountLoop {V : Type} (m : ℕ) :
    ℕ → List (String × CacheEntry V) × ℤ → List (String × CacheEntry V) × ℤ
  | 0, st => st
  | fuel + 1, (c, tot) =>
    if m ≤ c.length ∧ 0 < c.length then
      match popOldest c with
      | none => (c, tot)
      | some (e, rest) => evictCountLoop m fuel (rest, tot - e.2.size)
    else (c, tot)

/-- The loop `while self.total_memory + size > max_bytes and self.cache`. -/
def evictMemLoop {V : Type} (mb : ℚ) (size : ℕ) :
    ℕ → List (String × CacheEntry V) × ℤ → List (String × CacheEntry V) × ℤ
  | 0, st => st
  | fuel + 1, (c, tot) =>
    if mb < (tot : ℚ) + (size : ℚ) ∧ 0 < c.length then
      match popOldest c with
      | none => (c, tot)
      | some (e, rest) => evictMemLoop mb size fuel (rest, tot - e.2.size)
    else (c, tot)

/-- The count-eviction pass of `set`, guarded by `if self.max_size:`. -/
def countPass {V : Type} (cfg : CacheConfig)
    (st : List (String × CacheEntry V) × ℤ) : List (String × CacheEntry V) × ℤ :=
  if truthyNat cfg.max_size then
    evictCountLoop (cfg.max_size.getD 0) st.1.length st
  else st

/-- The memory-eviction pass of `set`, guarded by `if self.max_memory_mb:`. -/
def memPass {V : Type} (cfg : CacheConfig) (size : ℕ)
    (st : List (String × CacheEntry V) × ℤ) : List (String × CacheEntry V) × ℤ :=
  if truthyQ cfg.max_memory_mb then
    evictMemLoop (maxBytes cfg) size st.1.length st
  else st

/-- The two eviction passes of `set`, in order. -/
def runEvictions {V : Type} (cfg : CacheConfig) (size : ℕ)
    (st : List (String × CacheEntry V) × ℤ) : List (String × CacheEntry V) × ℤ :=
  memPass cfg size (countPass cfg st)

/-- Tail of `set`: subtract an overwritten entry's recorded size, store
the new entry, add its size. -/
def storeEntry {V : Type} (key : String) (value : V) (now : ℚ) (size : ℕ)
    (st : List (String × CacheEntry V) × ℤ) : CacheState V :=
  ⟨dset st.1 key ⟨value, now, size⟩,
   (match dget st.1 key with
     | some old => st.2 - old.size
     | none => st.2) + size⟩

/-- `set(key, value)`. -/
def cacheSet {V : Type} (cfg : CacheConfig) (s : CacheState V) (key : String) (value : V)
    (now : ℚ) (size : ℕ) : CacheState V :=
  if oversized cfg size then s
  else storeEntry key value now size
    (runEvictions cfg size (sweepExpired cfg.ttl now s.cache s.total_memory))

/-- `clear()`. -/
def cacheClear (V : Type) : CacheState V := ⟨[], 0⟩

/-- One public cache operation. -/
inductive CacheOp (V : Type) where
  | get : String → ℚ → CacheOp V
  | set : String → V → ℚ → ℕ → CacheOp V
  | clear : CacheOp V

/-- Apply one operation to the state. -/
def applyOp {V : Type} (cfg : CacheConfig) (s : CacheState V) : CacheOp V → CacheState V
  | CacheOp.get k now => (cacheGet cfg s k now).2
  | CacheOp.set k v now size => cacheSet cfg s k v now size
  | CacheOp.clear => cacheClear V

/-- Run a sequence of operations from a fresh `AsyncCache`. -/
def runCacheOps {V : Type} (cfg : CacheConfig) (ops : List (CacheOp V)) : CacheState V :=
  ops.foldl (applyOp cfg) ⟨[], 0⟩

theorem sizeSum_nil {V : Type} : sizeSum ([] : List (String × CacheEntry V)) = 0 := rfl

theorem sizeSum_cons {V : Type} (p : String × CacheEntry V)
    (c : List (String × CacheEntry V)) :
    sizeSum (p :: c) = (p.2.size : ℤ) + sizeSum c := by
  simp [sizeSum]

theorem sizeSum_perm {V : Type} {c d : List (String × CacheEntry V)} (h : c.Perm d) :
    sizeSum c = sizeSum d :=
  List.Perm.sum_eq (List.Perm.map _ h)

theorem sizeSum_filter_split {V : Type} (f : String × CacheEntry V → Bool)
    (c : List (String × CacheEntry V)) :
    sizeSum c = sizeSum (c.filter f) + sizeSum (c.filter (fun p => ! f p)) := by
  induction c with
  | nil => simp [sizeSum]
  | cons p rest ih =>
    cases hf : f p <;>
      simp [List.filter_cons, hf, sizeSum_cons, ih] <;> ring

/-- The key list of a dict. -/
def keysOf {K V : Type} (d : List (K × V)) : List K := d.map Prod.fst

theorem dmem_iff_keys {K V : Type} [DecidableEq K] (d : List (K × V)) (k : K) :
    dmem d k = true ↔ k ∈ keysOf d := by
  induction d with
  | nil => simp [dmem, keysOf]
  | cons p rest ih =>
    by_cases hp : p.1 = k
    · simp [dmem, keysOf, hp]
    · simp only [dmem, hp, if_false, keysOf, List.map_cons, List.mem_cons]
      rw [ih]
      constructor
      · intro h; exact Or.inr h
      · intro h
        rcases h with h | h
        · exact absurd h.symm hp
        · exact h

theorem keysOf_dset {K V : Type} [DecidableEq K] (d : List (K × V)) (k : K) (v : V) :
    keysOf (dset d k v) = if dmem d k then keysOf d else keysOf d ++ [k] := by
  induction d with
  | nil => simp [dset, dmem, keysOf]
  | cons p rest ih =>
    by_cases hp : p.1 = k
    · simp [dset, dmem, keysOf, hp]
    · simp only [dset, dmem, hp, if_false, keysOf, List.map_cons] at ih ⊢
      rw [ih]
      by_cases hm : dmem rest k <;> simp [hm]

theorem keysNodup_dset {K V : Type} [DecidableEq K] (d : List (K × V)) (k : K) (v : V)
    (h : (keysOf d).Nodup) : (keysOf (dset d k v)).Nodup := by
  rw [keysOf_dset]
  by_cases hm : dmem d k
  · simp [hm, h]
  · simp only [hm, if_false]
    have hk : k ∉ keysOf d := fun hc => by
      rw [← dmem_iff_keys] at hc
      exact absurd hc (by simp [hm])
    simp [List.nodup_append, h, hk]

theorem ddel_sublist {K V : Type} [DecidableEq K] (d : List (K × V)) (k : K) :
    (ddel d k).Sublist d := by
  induction d with
  | nil => simp [ddel]
  | cons p rest ih =>
    by_cases hp : p.1 = k
    · simp only [ddel, hp, if_true]
      exact List.Sublist.cons p ih
    · simp only [ddel, hp, if_false]
      exact List.Sublist.cons₂ p ih

theorem keysNodup_ddel {K V : Type} [DecidableEq K] (d : List (K × V)) (k : K)
    (h : (keysOf d).Nodup) : (keysOf (ddel d k)).Nodup :=
  List.Nodup.sublist (List.Sublist.map Prod.fst (ddel_sublist d k)) h

theorem length_ddel_le {K V : Type} [DecidableEq K] (d : List (K × V)) (k : K) :
    (ddel d k).length ≤ d.length :=
  (ddel_sublist d k).length_le

theorem length_dset_le {K V : Type} [DecidableEq K] (d : List (K × V)) (k : K) (v : V) :
    (dset d k v).length ≤ d.length + 1 := by
  induction d with
  | nil => simp [dset]
  | cons p rest ih =>
    by_cases hp : p.1 = k
    · simp [dset, hp]
    · simp [dset, hp]
      omega

theorem sizeSum_ddel {V : Type} (c : List (String × CacheEntry V)) (k : String)
    (e : CacheEntry V) (hget : dget c k = some e) (hnd : (keysOf c).Nodup) :
    sizeSum (ddel c k) = sizeSum c - e.size := by
  induction c with
  | nil => simp [dget] at hget
  | cons p rest ih =>
    have hnd2 : (keysOf rest).Nodup := (List.nodup_cons.mp hnd).2
    by_cases hp : p.1 = k
    · simp only [dget, hp, if_true, Option.some.injEq] at hget
      subst hget
      have hmem : dmem rest k = false := by
        have hnin : p.1 ∉ keysOf rest := (List.nodup_cons.mp hnd).1
        rw [hp] at hnin
        cases hdm : dmem rest k
        · rfl
        · exact absurd ((dmem_iff_keys rest k).mp hdm) hnin
      simp only [ddel, hp, if_true]
      rw [ddel_not_mem rest k hmem, sizeSum_cons]
      ring
    · simp only [dget, hp, if_false] at hget
      simp only [ddel, hp, if_false]
      rw [sizeSum_cons, sizeSum_cons, ih hget hnd2]
      ring

theorem sizeSum_dset {V : Type} (c : List (String × CacheEntry V)) (k : String)
    (e : CacheEntry V) :
    sizeSum (dset c k e) =
      sizeSum c + (e.size : ℤ) - (match dget c k with
        | some old => (old.size : ℤ)
        | none => 0) := by
  induction c with
  | nil => simp [dset, dget, sizeSum_cons, sizeSum]
  | cons p rest ih =>
    by_cases hp : p.1 = k
    · simp [dset, dget, hp, sizeSum_cons]
      ring
    · simp only [dset, dget, hp, if_false, List.cons.injEq]
      rw [sizeSum_cons, sizeSum_cons, ih]
      cases dget rest k <;> ring

theorem popOldest_perm {V : Type} :
    ∀ (c : List (String × CacheEntry V)) (e : String × CacheEntry V)
      (rest : List (String × CacheEntry V)),
    popOldest c = some (e, rest) → c.Perm (e :: rest) := by
  intro c
  induction c with
  | nil => intro e rest h; simp [popOldest] at h
  | cons p xs ih =>
    intro e rest h
    simp only [popOldest] at h
    by_cases hall : xs.all (fun q => decide (p.2.timestamp ≤ q.2.timestamp)) = true
    · rw [if_pos hall] at h
      simp only [Option.some.injEq, Prod.mk.injEq] at h
      obtain ⟨rfl, rfl⟩ := h
      exact List.Perm.refl _
    · rw [if_neg hall] at h
      cases hpo : popOldest xs with
      | none =>
        rw [hpo] at h
        simp only [Option.some.injEq, Prod.mk.injEq] at h
        obtain ⟨rfl, rfl⟩ := h
        exact List.Perm.refl _
      | some pr =>
        obtain ⟨e2, rest2⟩ := pr
        rw [hpo] at h
        simp only [Option.some.injEq, Prod.mk.injEq] at h
        obtain ⟨rfl, rfl⟩ := h
        exact ((ih _ _ hpo).cons p).trans (List.Perm.swap _ p _)

theorem popOldest_length {V : Type} (c : List (String × CacheEntry V))
    (e : String × CacheEntry V) (rest : List (String × CacheEntry V))
    (h : popOldest c = some (e, rest)) : c.length = rest.length + 1 := by
  have := (popOldest_perm c e rest h).length_eq
  simpa using this

theorem popOldest_sizeSum {V : Type} (c : List (String × CacheEntry V))
    (e : String × CacheEntry V) (rest : List (String × CacheEntry V))
    (h : popOldest c = some (e, rest)) : sizeSum c = (e.2.size : ℤ) + sizeSum rest := by
  have := sizeSum_perm (popOldest_perm c e rest h)
  rw [this, sizeSum_cons]

theorem popOldest_keysNodup {V : Type} (c : List (String × CacheEntry V))
    (e : String × CacheEntry V) (rest : List (String × CacheEntry V))
    (h : popOldest c = some (e, rest)) (hnd : (keysOf c).Nodup) :
    (keysOf rest).Nodup := by
  have hperm : (keysOf c).Perm (keysOf (e :: rest)) :=
    (popOldest_perm c e rest h).map Prod.fst
  have hc : (keysOf (e :: rest)).Nodup := hperm.nodup_iff.mp hnd
  simp only [keysOf, List.map_cons] at hc
  exact (List.nodup_cons.mp hc).2

theorem popOldest_of_pos {V : Type} (c : List (String × CacheEntry V)) (h : 0 < c.length) :
    ∃ e rest, popOldest c = some (e, rest) := by
  cases c with
  | nil => simp at h
  | cons p xs =>
    simp only [popOldest]
    by_cases hall : xs.all (fun q => decide (p.2.timestamp ≤ q.2.timestamp)) = true
    · exact ⟨p, xs, by rw [if_pos hall]⟩
    · cases hpo : popOldest xs with
      | none => exact ⟨p, xs, by rw [if_neg hall]⟩
      | some pr =>
        obtain ⟨e2, rest2⟩ := pr
        exact ⟨e2, p :: rest2, by rw [if_neg hall]⟩

theorem evictCountLoop_wf {V : Type} (m : ℕ) :
    ∀ (fuel : ℕ) (c : List (String × CacheEntry V)) (tot : ℤ),
    tot = sizeSum c → (keysOf c).Nodup →
    (evictCountLoop m fuel (c, tot)).2 = sizeSum (evictCountLoop m fuel (c, tot)).1 ∧
    (keysOf (evictCountLoop m fuel (c, tot)).1).Nodup := by
  intro fuel
  induction fuel with
  | zero => intro c tot h1 h2; exact ⟨h1, h2⟩
  | succ fuel ih =>
    intro c tot h1 h2
    simp only [evictCountLoop]
    by_cases hc : m ≤ c.length ∧ 0 < c.length
    · rw [if_pos hc]
      obtain ⟨e, rest, hpo⟩ := popOldest_of_pos c hc.2
      rw [hpo]
      apply ih
      · have := popOldest_sizeSum c e rest hpo
        omega
      · exact popOldest_keysNodup c e rest hpo h2
    · rw [if_neg hc]
      exact ⟨h1, h2⟩

theorem evictMemLoop_wf {V : Type} (mb : ℚ) (size : ℕ) :
    ∀ (fuel : ℕ) (c : List (String × CacheEntry V)) (tot : ℤ),
    tot = sizeSum c → (keysOf c).Nodup →
    (evictMemLoop mb size fuel (c, tot)).2 = sizeSum (evictMemLoop mb size fuel (c, tot)).1 ∧
    (keysOf (evictMemLoop mb size fuel (c, tot)).1).Nodup := by
  intro fuel
  induction fuel with
  | zero => intro c tot h1 h2; exact ⟨h1, h2⟩
  | succ fuel ih =>
    intro c tot h1 h2
    simp only [evictMemLoop]
    by_cases hc : mb < (tot : ℚ) + (size : ℚ) ∧ 0 < c.length
    · rw [if_pos hc]
      obtain ⟨e, rest, hpo⟩ := popOldest_of_pos c hc.2
      rw [hpo]
      apply ih
      · have := popOldest_sizeSum c e rest hpo
        omega
      · exact popOldest_keysNodup c e rest hpo h2
    · rw [if_neg hc]
      exact ⟨h1, h2⟩

theorem evictCountLoop_post {V : Type} (m : ℕ) :
    ∀ (fuel : ℕ) (c : List (String × CacheEntry V)) (tot : ℤ),
    c.length ≤ fuel →
    (evictCountLoop m fuel (c, tot)).1.length < m ∨
      (evictCountLoop m fuel (c, tot)).1.length = 0 := by
  intro fuel
  induction fuel with
  | zero =>
    intro c tot hf
    right
    simpa [evictCountLoop] using Nat.le_zero.mp hf
  | succ fuel ih =>
    intro c tot hf
    simp only [evictCountLoop]
    by_cases hc : m ≤ c.length ∧ 0 < c.length
    · rw [if_pos hc]
      obtain ⟨e, rest, hpo⟩ := popOldest_of_pos c hc.2
      rw [hpo]
      apply ih
      have := popOldest_length c e rest hpo
      omega
    · rw [if_neg hc]
      push_neg at hc
      show c.length < m ∨ c.length = 0
      omega

theorem evictMemLoop_len {V : Type} (mb : ℚ) (size : ℕ) :
    ∀ (fuel : ℕ) (c : List (String × CacheEntry V)) (tot : ℤ),
    (evictMemLoop mb size fuel (c, tot)).1.length ≤ c.length := by
  intro fuel
  induction fuel with
  | zero => intro c tot; exact le_refl _
  | succ fuel ih =>
    intro c tot
    simp only [evictMemLoop]
    by_cases hc : mb < (tot : ℚ) + (size : ℚ) ∧ 0 < c.length
    · rw [if_pos hc]
      obtain ⟨e, rest, hpo⟩ := popOldest_of_pos c hc.2
      rw [hpo]
      show (evictMemLoop mb size fuel (rest, tot - (e.2.size : ℤ))).1.length ≤ c.length
      have h1 := ih rest (tot - (e.2.size : ℤ))
      have h2 := popOldest_length c e rest hpo
      omega
    · rw [if_neg hc]

theorem sweepExpired_wf {V : Type} (ttl now : ℚ) (c : List (String × CacheEntry V)) (tot : ℤ)
    (h1 : tot = sizeSum c) (h2 : (keysOf c).Nodup) :
    (sweepExpired ttl now c tot).2 = sizeSum (sweepExpired ttl now c tot).1 ∧
    (keysOf (sweepExpired ttl now c tot).1).Nodup := by
  constructor
  · show tot - sizeSum (c.filter (fun p => decide (ttl ≤ now - p.2.timestamp))) =
      sizeSum (c.filter (fun p => decide (now - p.2.timestamp < ttl)))
    have hcompl : (fun p : String × CacheEntry V => decide (ttl ≤ now - p.2.timestamp)) =
        (fun p => ! decide (now - p.2.timestamp < ttl)) := by
      funext p
      rcases le_or_lt ttl (now - p.2.timestamp) with hq | hq
      · simp [hq, not_lt.mpr hq]
      · simp [hq, not_le.mpr hq]
    rw [hcompl, h1, sizeSum_filter_split (fun p => decide (now - p.2.timestamp < ttl)) c]
    ring
  · exact List.Nodup.sublist (List.Sublist.map Prod.fst (List.filter_sublist c)) h2

theorem countPass_wf {V : Type} (cfg : CacheConfig)
    (st : List (String × CacheEntry V) × ℤ)
    (h1 : st.2 = sizeSum st.1) (h2 : (keysOf st.1).Nodup) :
    (countPass cfg st).2 = sizeSum (countPass cfg st).1 ∧
    (keysOf (countPass cfg st).1).Nodup := by
  unfold countPass
  by_cases ht : truthyNat cfg.max_size = true
  · rw [if_pos ht]
    exact evictCountLoop_wf _ _ st.1 st.2 h1 h2
  · rw [if_neg ht]
    exact ⟨h1, h2⟩

theorem memPass_wf {V : Type} (cfg : CacheConfig) (size : ℕ)
    (st : List (String × CacheEntry V) × ℤ)
    (h1 : st.2 = sizeSum st.1) (h2 : (keysOf st.1).Nodup) :
    (memPass cfg size st).2 = sizeSum (memPass cfg size st).1 ∧
    (keysOf (memPass cfg size st).1).Nodup := by
  unfold memPass
  by_cases ht : truthyQ cfg.max_memory_mb = true
  · rw [if_pos ht]
    exact evictMemLoop_wf _ _ _ st.1 st.2 h1 h2
  · rw [if_neg ht]
    exact ⟨h1, h2⟩

theorem storeEntry_wf {V : Type} (key : String) (value : V) (now : ℚ) (size : ℕ)
    (st : List (String × CacheEntry V) × ℤ)
    (h1 : st.2 = sizeSum st.1) (h2 : (keysOf st.1).Nodup) :
    (storeEntry key value now size st).total_memory =
      sizeSum (storeEntry key value now size st).cache ∧
    (keysOf (storeEntry key value now size st).cache).Nodup := by
  obtain ⟨c, tot⟩ := st
  simp only at h1 h2
  refine ⟨?_, keysNodup_dset c key _ h2⟩
  show (match dget c key with
    | some old => tot - (old.size : ℤ)
    | none => tot) + (size : ℤ) = sizeSum (dset c key ⟨value, now, size⟩)
  rw [sizeSum_dset, h1]
  cases hd : dget c key <;> simp only [hd] <;> ring

theorem cacheSet_wf {V : Type} (cfg : CacheConfig) (s : CacheState V) (key : String)
    (value : V) (now : ℚ) (size : ℕ)
    (h1 : s.total_memory = sizeSum s.cache) (h2 : (keysOf s.cache).Nodup) :
    (cacheSet cfg s key value now size).total_memory =
      sizeSum (cacheSet cfg s key value now size).cache ∧
    (keysOf (cacheSet cfg s key value now size).cache).Nodup := by
  unfold cacheSet
  by_cases hov : oversized cfg size = true
  · rw [if_pos hov]
    exact ⟨h1, h2⟩
  · rw [if_neg hov]
    have hsw := sweepExpired_wf cfg.ttl now s.cache s.total_memory h1 h2
    have hcp := countPass_wf cfg _ hsw.1 hsw.2
    have hmp := memPass_wf cfg size _ hcp.1 hcp.2
    exact storeEntry_wf key value now size _ hmp.1 hmp.2

theorem cacheGet_wf {V : Type} (cfg : CacheConfig) (s : CacheState V) (key : String)
    (now : ℚ)
    (h1 : s.total_memory = sizeSum s.cache) (h2 : (keysOf s.cache).Nodup) :
    (cacheGet cfg s key now).2.total_memory = sizeSum (cacheGet cfg s key now).2.cache ∧
    (keysOf (cacheGet cfg s key now).2.cache).Nodup := by
  cases hd : dget s.cache key with
  | none =>
    have hg : cacheGet cfg s key now = (none, s) := by
      unfold cacheGet
      rw [hd]
    rw [hg]
    exact ⟨h1, h2⟩
  | some e =>
    by_cases hf : now - e.timestamp < cfg.ttl
    · have hg : cacheGet cfg s key now = (some e.value, s) := by
        unfold cacheGet
        rw [hd]
        simp [hf]
      rw [hg]
      exact ⟨h1, h2⟩
    · have hg : cacheGet cfg s key now =
          (none, ⟨ddel s.cache key, s.total_memory - (e.size : ℤ)⟩) := by
        unfold cacheGet
        rw [hd]
        simp [hf]
      rw [hg]
      refine ⟨?_, keysNodup_ddel s.cache key h2⟩
      show s.total_memory - (e.size : ℤ) = sizeSum (ddel s.cache key)
      rw [sizeSum_ddel s.cache key e hd h2, h1]

/-- C6: after any sequence of `get`/`set`/`clear` operations on a fresh
`AsyncCache`, `total_memory` equals the sum of the recorded sizes of the
live entries — every path that inserts, overwrites, expires or evicts an
entry adjusts the total by exactly that entry's recorded size. -/
theorem cache_memory_total_invariant {V : Type} (cfg : CacheConfig) (ops : List (CacheOp V)) :
    (runCacheOps cfg ops).total_memory = sizeSum (runCacheOps cfg ops).cache := by
  suffices h : ∀ s : CacheState V,
      s.total_memory = sizeSum s.cache → (keysOf s.cache).Nodup →
      (ops.foldl (applyOp cfg) s).total_memory = sizeSum (ops.foldl (applyOp cfg) s).cache ∧
      (keysOf (ops.foldl (applyOp cfg) s).cache).Nodup by
    exact (h ⟨[], 0⟩ rfl List.nodup_nil).1
  induction ops with
  | nil => intro s hs hn; exact ⟨hs, hn⟩
  | cons op rest ih =>
    intro s hs hn
    cases op with
    | get k now =>
      obtain ⟨h1, h2⟩ := cacheGet_wf cfg s k now hs hn
      exact ih _ h1 h2
    | set k v now size =>
      obtain ⟨h1, h2⟩ := cacheSet_wf cfg s k v now size hs hn
      exact ih _ h1 h2
    | clear => exact ih _ rfl List.nodup_nil

theorem countPass_post {V : Type} (cfg : CacheConfig)
    (st : List (String × CacheEntry V) × ℤ) (m : ℕ)
    (hm : cfg.max_size = some m) (hm0 : m ≠ 0) :
    (countPass cfg st).1.length < m ∨ (countPass cfg st).1.length = 0 := by
  have htr : truthyNat cfg.max_size = true := by
    rw [hm]
    simpa [truthyNat] using hm0
  unfold countPass
  rw [if_pos htr, hm]
  simpa using evictCountLoop_post m st.1.length st.1 st.2 (le_refl _)

theorem memPass_len {V : Type} (cfg : CacheConfig) (size : ℕ)
    (st : List (String × CacheEntry V) × ℤ) :
    (memPass cfg size st).1.length ≤ st.1.length := by
  unfold memPass
  by_cases ht : truthyQ cfg.max_memory_mb = true
  · rw [if_pos ht]
    exact evictMemLoop_len _ _ st.1.length st.1 st.2
  · rw [if_neg ht]

theorem cacheSet_length_le {V : Type} (cfg : CacheConfig) (s : CacheState V) (key : String)
    (value : V) (now : ℚ) (size : ℕ) (m : ℕ)
    (hm : cfg.max_size = some m) (hm0 : m ≠ 0) (hs : s.cache.length ≤ m) :
    (cacheSet cfg s key value now size).cache.length ≤ m := by
  unfold cacheSet
  by_cases hov : oversized cfg size = true
  · rw [if_pos hov]
    exact hs
  · rw [if_neg hov]
    have hpost := countPass_post cfg
      (sweepExpired cfg.ttl now s.cache s.total_memory) m hm hm0
    have hlen := memPass_len cfg size (countPass cfg
      (sweepExpired cfg.ttl now s.cache s.total_memory))
    have hins : (storeEntry key value now size (runEvictions cfg size
        (sweepExpired cfg.ttl now s.cache s.total_memory))).cache.length ≤
        (runEvictions cfg size (sweepExpired cfg.ttl now s.cache s.total_memory)).1.length
          + 1 :=
      length_dset_le _ key _
    unfold runEvictions at hins ⊢
    omega

theorem cacheGet_length_le {V : Type} (cfg : CacheConfig) (s : CacheState V) (key : String)
    (now : ℚ) :
    (cacheGet cfg s key now).2.cache.length ≤ s.cache.length := by
  cases hd : dget s.cache key with
  | none =>
    have hg : cacheGet cfg s key now = (none, s) := by
      unfold cacheGet
      rw [hd]
    rw [hg]
  | some e =>
    by_cases hf : now - e.timestamp < cfg.ttl
    · have hg : cacheGet cfg s key now = (some e.value, s) := by
        unfold cacheGet
        rw [hd]
        simp [hf]
      rw [hg]
    · have hg : cacheGet cfg s key now =
          (none, ⟨ddel s.cache key, s.total_memory - (e.size : ℤ)⟩) := by
        unfold cacheGet
        rw [hd]
        simp [hf]
      rw [hg]
      exact length_ddel_le s.cache key

/-- C5: with a truthy `max_size = m` configured, the cache holds at most
`m` entries after any sequence of operations on a fresh `AsyncCache` (in
particular after any `set` returns): `set` evicts oldest-by-insertion-time
entries until under the limit before inserting. -/
theorem cache_max_size_bound {V : Type} (cfg : CacheConfig) (ops : List (CacheOp V)) (m : ℕ)
    (hm : cfg.max_size = some m) (hm0 : m ≠ 0) :
    (runCacheOps cfg ops).cache.length ≤ m := by
  suffices h : ∀ s : CacheState V, s.cache.length ≤ m →
      (ops.foldl (applyOp cfg) s).cache.length ≤ m by
    exact h ⟨[], 0⟩ (Nat.zero_le m)
  induction ops with
  | nil => intro s hs; exact hs
  | cons op rest ih =>
    intro s hs
    cases op with
    | get k now => exact ih _ (le_trans (cacheGet_length_le cfg s k now) hs)
    | set k v now size => exact ih _ (cacheSet_length_le cfg s k v now size m hm hm0 hs)
    | clear => exact ih _ (Nat.zero_le m)

theorem cache_max_size_bound_witness :
    (runCacheOps ⟨3600, some 2, none⟩
      [CacheOp.set "a" (1 : ℕ) 0 4, CacheOp.set "b" 2 1 4,
       CacheOp.set "c" 3 2 4]).cache.length ≤ 2 :=
  cache_max_size_bound ⟨3600, some 2, none⟩
    [CacheOp.set "a" (1 : ℕ) 0 4, CacheOp.set "b" 2 1 4, CacheOp.set "c" 3 2 4] 2 rfl
    (by decide)

/-- C4: a `get` at least `ttl` seconds after the `set` that last wrote the
key misses and drops the expired entry, subtracting its size; the
freshness test `now - timestamp < ttl` is strict, so with `ttl = 0` the
entry is expired even at the very instant it was stored. -/
theorem cache_get_after_ttl {V : Type} (cfg : CacheConfig) (s : CacheState V) (key : String)
    (v : V) (t now : ℚ) (size : ℕ)
    (hsz : oversized cfg size = false)
    (hexp : cfg.ttl ≤ now - t) :
    (cacheGet cfg (cacheSet cfg s key v t size) key now).1 = none ∧
    dmem (cacheGet cfg (cacheSet cfg s key v t size) key now).2.cache key = false ∧
    (cacheGet cfg (cacheSet cfg s key v t size) key now).2.total_memory =
      (cacheSet cfg s key v t size).total_memory - size := by
  have hset : dget (cacheSet cfg s key v t size).cache key =
      some (⟨v, t, size⟩ : CacheEntry V) := by
    unfold cacheSet
    rw [if_neg (by simp [hsz])]
    exact dget_dset_self _ key _
  have hnl : ¬ (now - t < cfg.ttl) := not_lt.mpr hexp
  have hg : cacheGet cfg (cacheSet cfg s key v t size) key now =
      (none, ⟨ddel (cacheSet cfg s key v t size).cache key,
              (cacheSet cfg s key v t size).total_memory - (size : ℤ)⟩) := by
    unfold cacheGet
    rw [hset]
    simp [hnl]
  rw [hg]
  exact ⟨rfl, dmem_ddel_self _ key, rfl⟩

theorem cache_get_after_ttl_witness :
    (cacheGet ⟨0, none, none⟩
      (cacheSet ⟨0, none, none⟩ (⟨[], 0⟩ : CacheState ℕ) "k" 1 0 4) "k" 0).1 = none ∧
    dmem (cacheGet ⟨0, none, none⟩
      (cacheSet ⟨0, none, none⟩ (⟨[], 0⟩ : CacheState ℕ) "k" 1 0 4) "k" 0).2.cache "k"
      = false ∧
    (cacheGet ⟨0, none, none⟩
      (cacheSet ⟨0, none, none⟩ (⟨[], 0⟩ : CacheState ℕ) "k" 1 0 4) "k" 0).2.total_memory
      = (cacheSet ⟨0, none, none⟩ (⟨[], 0⟩ : CacheState ℕ) "k" 1 0 4).total_memory - 4 :=
  cache_get_after_ttl ⟨0, none, none⟩ (⟨[], 0⟩ : CacheState ℕ) "k" 1 0 0 4 rfl (by norm_num)

theorem cacheGet_cacheSet_fresh {V : Type} (cfg : CacheConfig) (s : CacheState V)
    (key : String) (v : V) (t now : ℚ) (size : ℕ)
    (hsz : oversized cfg size = false)
    (hfresh : now - t < cfg.ttl) :
    (cacheGet cfg (cacheSet cfg s key v t size) key now).1 = some v := by
  have hset : dget (cacheSet cfg s key v t size).cache key =
      some (⟨v, t, size⟩ : CacheEntry V) := by
    unfold cacheSet
    rw [if_neg (by simp [hsz])]
    exact dget_dset_self _ key _
  unfold cacheGet
  rw [hset]
  simp [hfresh]

/-!
## `async_cache` decorator key derivation (cache.py)
-/

/-- `hasattr(x, "__class__")`: every Python object carries `__class__`,
so this guard is constantly true — it does not distinguish method
receivers from plain first arguments. -/
def hasClassAttr {α : Type} (_a : α) : Bool := true

/-- `cache_args = args[1:] if args and hasattr(args[0], "__class__") else args`. -/
def cacheKeyArgs {α : Type} : List α → List α
  | [] => []
  | a :: rest => if hasClassAttr a then rest else a :: rest

/-- The key `sha256(json.dumps([cache_args, kwargs], sort_keys=True))`,
with the serialize-and-hash step abstracted as a function of the pair it
hashes. -/
def cacheKey {α κ : Type} (h : List α × κ → String) (args : List α) (kwargs : κ) : String :=
  h (cacheKeyArgs args, kwargs)

/-- C9: the decorator drops the first positional argument of every
nonempty argument list (the `hasattr` guard holds for every value), so two
calls that differ only in their first positional argument share a cache
key, and the second call can be served the first call's cached result. -/
theorem async_cache_skips_first_arg {α κ V : Type} (h : List α × κ → String)
    (x y : α) (rest : List α) (kw : κ)
    (cfg : CacheConfig) (s : CacheState V) (v : V) (t now : ℚ) (sz : ℕ)
    (hsz : oversized cfg sz = false)
    (hfresh : now - t < cfg.ttl) :
    hasClassAttr x = true ∧
    cacheKey h (x :: rest) kw = cacheKey h (y :: rest) kw ∧
    (cacheGet cfg (cacheSet cfg s (cacheKey h (x :: rest) kw) v t sz)
        (cacheKey h (y :: rest) kw) now).1 = some v := by
  have hkey : cacheKey h (x :: rest) kw = cacheKey h (y :: rest) kw := by
    simp [cacheKey, cacheKeyArgs, hasClassAttr]
  refine ⟨rfl, hkey, ?_⟩
  rw [hkey]
  exact cacheGet_cacheSet_fresh cfg s _ v t now sz hsz hfresh

theorem async_cache_skips_first_arg_witness :
    hasClassAttr (0 : ℕ) = true ∧
    cacheKey (fun _ => "k") ([0, 5] : List ℕ) () = cacheKey (fun _ => "k") [1, 5] () ∧
    (cacheGet ⟨10, none, none⟩
        (cacheSet ⟨10, none, none⟩ (⟨[], 0⟩ : CacheState ℕ)
          (cacheKey (fun _ => "k") ([0, 5] : List ℕ) ()) 7 0 4)
        (cacheKey (fun _ => "k") ([1, 5] : List ℕ) ()) 0).1 = some 7 :=
  async_cache_skips_first_arg (fun _ => "k") 0 1 [5] () ⟨10, none, none⟩ ⟨[], 0⟩ 7 0 0 4
    rfl (by norm_num)

/-!
## Usage tracker (`TokenTracker`, token_tracker.py)

The rates 0.70 and 2.80 dollars per million tokens are the exact
rationals 7/10 and 28/10.
-/

/-- The two running counters of a `TokenTracker`. -/
structure TokenTrackerState where
  input_tokens : ℕ
  output_tokens : ℕ
  deriving DecidableEq

/-- A fresh `TokenTracker()`. -/
def initTracker : TokenTrackerState := ⟨0, 0⟩

/-- `add_usage`: increment both counters. -/
def add_usage (s : TokenTrackerState) (i o : ℕ) : TokenTrackerState :=
  ⟨s.input_tokens + i, s.output_tokens + o⟩

/-- `_calculate_cost`: `(input_tokens * 0.70 + output_tokens * 2.80) / 1_000_000`. -/
def calculate_cost (s : TokenTrackerState) : ℚ :=
  ((s.input_tokens : ℚ) * (7 / 10) + (s.output_tokens : ℚ) * (28 / 10)) / 1000000

/-- The record returned by `get_usage`. -/
structure TokenUsage where
  input_tokens : ℕ
  output_tokens : ℕ
  cost : ℚ
  deriving DecidableEq

/-- `get_usage`: both totals plus the cost over the running totals. -/
def get_usage (s : TokenTrackerState) : TokenUsage :=
  ⟨s.input_tokens, s.output_tokens, calculate_cost s⟩

/-- C8: `get_usage` reports
`cost = input_tokens * 0.70/1e6 + output_tokens * 2.80/1e6` over the
running totals, and on a fresh tracker `add_usage(1_000_000, 1_000_000)`
yields cost `0.70 + 2.80 = 3.50`. -/
theorem token_tracker_cost (s : TokenTrackerState) :
    (get_usage s).cost =
      (s.input_tokens : ℚ) * ((7 / 10) / 1000000) +
      (s.output_tokens : ℚ) * ((28 / 10) / 1000000) ∧
    (get_usage (add_usage initTracker 1000000 1000000)).cost = 7 / 10 + 28 / 10 ∧
    (7 : ℚ) / 10 + 28 / 10 = 35 / 10 := by
  refine ⟨?_, ?_, by norm_num⟩
  · show ((s.input_tokens : ℚ) * (7 / 10) + (s.output_tokens : ℚ) * (28 / 10)) / 1000000 = _
    ring
  · norm_num [get_usage, calculate_cost, add_usage, initTracker]

end BookBot
